import Mathlib

/-!
Verification of the traversal-and-rename core of `rename_files.py`.

The program is embedded shallowly:

* Names are `List Char` (Python strings).
* `get_new_filename` (source lines 99-116) resolves the search token to a
  pattern — `\s+` when the token is the single space, the escaped literal
  token otherwise — splits the name on every non-overlapping match of that
  pattern and joins the pieces with the replacement token.  The regex split
  is embedded as explicit recursive scanners (`splitWs`, `splitLit`); each
  carries a fuel argument equal to the length of the scanned name so that
  the definitions are structurally recursive and evaluate by `decide`.
* The filesystem is the inductive `FS`: a tree of files and directories.
  Every node carries a `renameOk` oracle (whether `os.rename` on that entry
  succeeds, source lines 119-132: the `try/except` returns `False` on
  `OSError`/`PermissionError`).  Directories carry two separate oracles,
  because the source guards the two calls differently: `canEnter` is
  whether `os.chdir` succeeds — the only call inside the `try` of source
  lines 158-163 — and `canList` is whether `os.listdir()` at source
  line 166 succeeds.  That listing call sits outside the `try`, so its
  failure raises an uncaught exception that aborts the entire run.
* `rename_files` (source lines 135-185) walks a directory: on `os.chdir`
  failure it reports an error message and returns the counter unchanged
  (recovered); on `os.listdir` failure it raises — modelled as
  `Except.error`, carrying the raising directory's name and the messages
  already reported before the crash, propagated through every pending
  recursive call.  Otherwise it processes each immediate entry
  (`processEntry`, the loop body of lines 166-179), collecting every
  directory entry for recursion, and then — when `sub_directories` is set
  and some directory entry was seen — recurses into each directory,
  threading the counter.  The recursion is fueled by the node-weight
  `FS.nsize`, which ignores names, so the wrapper `rename_files` always
  supplies enough fuel.
-/

/-- The Python regex class `\s` for `str` patterns: ASCII whitespace
(space, tab, newline, vertical tab, form feed, carriage return, the file /
group / record / unit separators, next line) together with the Unicode
space separators.  Source line 112 uses the pattern `\s+`. -/
def pyIsSpace (c : Char) : Bool :=
  let n := c.toNat
  n = 32 || n = 9 || n = 10 || n = 11 || n = 12 || n = 13 ||
  n = 28 || n = 29 || n = 30 || n = 31 || n = 133 || n = 160 ||
  n = 5760 || (8192 ≤ n && n ≤ 8202) || n = 8232 || n = 8233 ||
  n = 8239 || n = 8287 || n = 12288

/-- Whitespace as the spec sentence for C4 words it: a space or a tab. -/
def isSpaceOrTab (c : Char) : Bool :=
  c = ' ' || c = '\t'

/-- Python `search in name`: literal substring containment, the guard used
at source lines 168 and 175. -/
def containsSub (s : List Char) : List Char → Bool
  | [] => s.isEmpty
  | c :: rest => s.isPrefixOf (c :: rest) || containsSub s rest

/-- Prepend a character to the first piece of a split (creating a piece if
none exists).  Helper for expressing the regex-split scanners. -/
def consHead (c : Char) : List (List Char) → List (List Char)
  | [] => [[c]]
  | p :: ps => (c :: p) :: ps

/-- `re.split(r'\s+', n)`: split on every maximal run of whitespace.
The fuel is decremented once per character position; the wrapper supplies
the length of the name, which is always sufficient. -/
def splitWsF : Nat → List Char → List (List Char)
  | 0, n => [n]
  | _ + 1, [] => [[]]
  | fuel + 1, c :: rest =>
    if pyIsSpace c then
      [] :: splitWsF fuel (rest.dropWhile pyIsSpace)
    else
      consHead c (splitWsF fuel rest)

/-- `re.split(r'\s+', n)` with sufficient fuel. -/
def splitWs (n : List Char) : List (List Char) :=
  splitWsF n.length n

/-- Splitting on a regex with an empty match at every position:
`re.split(re.escape(s), n)` when `s` is empty. -/
def splitEveryChar : List Char → List (List Char)
  | [] => [[]]
  | c :: rest => [c] :: splitEveryChar rest

/-- `re.split(re.escape(s), n)` for a non-empty literal token `s`: split on
every leftmost non-overlapping occurrence of `s`, consuming the match.
`re.escape` makes the pattern match the token literally, which is exactly
what `List.isPrefixOf` tests here. -/
def splitLitF (s : List Char) : Nat → List Char → List (List Char)
  | 0, n => [n]
  | _ + 1, [] => [[]]
  | fuel + 1, c :: rest =>
    if s.isPrefixOf (c :: rest) then
      [] :: splitLitF s fuel ((c :: rest).drop s.length)
    else
      consHead c (splitLitF s fuel rest)

/-- `re.split(re.escape(s), n)`. -/
def splitLit (s n : List Char) : List (List Char) :=
  if s.isEmpty then [] :: splitEveryChar n else splitLitF s n.length n

/-- Python `replace.join(parts)`. -/
def joinWith (replace : List Char) : List (List Char) → List Char
  | [] => []
  | [p] => p
  | p :: q :: ps => p ++ replace ++ joinWith replace (q :: ps)

/-- Source lines 99-116: resolve the pattern (`\s+` when the search token
is the single space, the escaped literal token otherwise), split the
filename on it and join the pieces with the replacement token. -/
def get_new_filename (filename search replace : List Char) : List Char :=
  let filename_parts :=
    if search = [' '] then splitWs filename else splitLit search filename
  joinWith replace filename_parts

/-- Modelled from the claim C1 wording: the name with every leftmost
non-overlapping literal occurrence of `s` replaced by `r`, scanning left to
right.  Fueled like the scanners above. -/
def replaceAllF (s r : List Char) : Nat → List Char → List Char
  | 0, n => n
  | _ + 1, [] => []
  | fuel + 1, c :: rest =>
    if s.isPrefixOf (c :: rest) then
      r ++ replaceAllF s r fuel ((c :: rest).drop s.length)
    else
      c :: replaceAllF s r fuel rest

/-- The claim-side replacement function for C1. -/
def replaceAll (s r n : List Char) : List Char :=
  replaceAllF s r n.length n

/-- Modelled from the claim C4 wording: replace every maximal run of
one-or-more characters satisfying `ws` by a single copy of `r`. -/
def collapseRunsF (ws : Char → Bool) (r : List Char) : Nat → List Char → List Char
  | 0, n => n
  | _ + 1, [] => []
  | fuel + 1, c :: rest =>
    if ws c then
      r ++ collapseRunsF ws r fuel (rest.dropWhile ws)
    else
      c :: collapseRunsF ws r fuel rest

/-- The claim-side run-collapsing function for C4. -/
def collapseRuns (ws : Char → Bool) (r n : List Char) : List Char :=
  collapseRunsF ws r n.length n

/-- A filesystem tree.  `renameOk` is the oracle for whether an OS rename
of this entry succeeds (source lines 119-132).  `canEnter` is the oracle
for whether `os.chdir` into the directory succeeds (the call guarded by the
`try` of source lines 158-163); `canList` is the oracle for whether
`os.listdir()` at source line 166 succeeds (that call is unguarded, so its
failure raises out of the whole run). -/
inductive FS where
  | file (name : List Char) (renameOk : Bool)
  | dir (name : List Char) (renameOk : Bool) (canEnter : Bool) (canList : Bool)
      (children : List FS)

/-- The entry's current name. -/
def FS.name : FS → List Char
  | .file n _ => n
  | .dir n _ _ _ _ => n

/-- The entry's rename oracle. -/
def FS.renameOk : FS → Bool
  | .file _ rOk => rOk
  | .dir _ rOk _ _ _ => rOk

/-- `os.path.isdir`. -/
def FS.isDir : FS → Bool
  | .file _ _ => false
  | .dir _ _ _ _ _ => true

mutual
/-- Node weight of a tree: one per entry plus one per list link, ignoring
names.  Used as fuel for the traversal; renaming never changes it. -/
def FS.nsize : FS → Nat
  | .file _ _ => 1
  | .dir _ _ _ _ cs => 1 + FS.nsizeL cs
/-- Node weight of a list of trees. -/
def FS.nsizeL : List FS → Nat
  | [] => 0
  | f :: fs => 1 + FS.nsize f + FS.nsizeL fs
end

/-- Source lines 119-132: `rename_file` wraps `os.rename` in
`try/except (OSError, PermissionError)` and returns whether the rename
succeeded.  In the model the outcome is the entry's oracle bit. -/
def rename_file (renameOk : Bool) : Bool :=
  renameOk

/-- Source line 161: the message reported when a directory cannot be
entered. -/
def access_denied_message (directory : List Char) : List Char :=
  "Access to directory \x22".toList ++ directory ++ "\x22 denied".toList

/-- The loop body of source lines 166-179 for one directory entry: a
directory is renamed only when `rename_directories` is set and its name
contains the search token; a file is skipped unless its name contains the
search token.  A successful rename bumps the counter and the entry keeps
its new name; a failed one leaves name and counter alone. -/
def processEntry (search replace : List Char) (rename_directories : Bool)
    (f : FS) (counter : Nat) : FS × Nat :=
  match f with
  | .dir n rOk canEnter canList cs =>
    if rename_directories && containsSub search n then
      let new_filename := get_new_filename n search replace
      if rename_file rOk then (.dir new_filename rOk canEnter canList cs, counter + 1)
      else (.dir n rOk canEnter canList cs, counter)
    else (.dir n rOk canEnter canList cs, counter)
  | .file n rOk =>
    if !(containsSub search n) then (.file n rOk, counter)
    else
      let new_filename := get_new_filename n search replace
      if rename_file rOk then (.file new_filename rOk, counter + 1)
      else (.file n rOk, counter)

/-- The full `for file in os.listdir()` loop of source lines 166-179,
processing the entries in listing order and threading the counter. -/
def processEntries (search replace : List Char) (rename_directories : Bool) :
    List FS → Nat → List FS × Nat
  | [], counter => ([], counter)
  | f :: fs, counter =>
    let p := processEntry search replace rename_directories f counter
    let q := processEntries search replace rename_directories fs p.2
    (p.1 :: q.1, q.2)

mutual
/-- Source lines 135-185, fueled.  Entering a file or a non-enterable
directory fails inside the `try` (`os.chdir` raises, lines 158-163): the
error message is reported and the counter is returned unchanged.  When the
directory is entered but `os.listdir()` at line 166 fails, the exception
is uncaught — the run aborts, modelled as `Except.error` carrying the
raising directory's name together with the messages reported before the
crash, and propagated unchanged through every caller.  Otherwise all
immediate entries are processed (lines 165-179); every directory entry —
renamed or not — was appended to the pending `directories` list, so when
`sub_directories` is set and that list is non-empty (line 181) the walker
recurses into each directory entry in order, threading the counter
(lines 182-184).  A normal result is the updated tree, the final counter
and the list of reported error messages. -/
def renameFilesF (search replace : List Char) (sub_directories rename_directories : Bool) :
    Nat → FS → Nat → Except (List Char × List (List Char)) (FS × Nat × List (List Char))
  | 0, fs, counter => .ok (fs, counter, [])
  | _ + 1, .file n rOk, counter => .ok (.file n rOk, counter, [access_denied_message n])
  | fuel + 1, .dir n rOk canEnter canList cs, counter =>
    if canEnter then
      if canList then
        let p := processEntries search replace rename_directories cs counter
        if sub_directories && p.1.any FS.isDir then
          match renameFilesListF search replace sub_directories rename_directories fuel
              p.1 p.2 with
          | .ok q => .ok (.dir n rOk canEnter canList q.1, q.2.1, q.2.2)
          | .error e => .error e
        else
          .ok (.dir n rOk canEnter canList p.1, p.2, [])
      else .error (n, [])
    else .ok (.dir n rOk canEnter canList cs, counter, [access_denied_message n])

/-- The recursion of source lines 182-184: visit, in order, each directory
recorded in the pending list (the directory entries of the processed
listing), threading the counter forward; file entries are left as they
are.  An uncaught exception from any visited subtree aborts the remaining
visits and propagates, keeping the messages reported before it. -/
def renameFilesListF (search replace : List Char) (sub_directories rename_directories : Bool) :
    Nat → List FS → Nat →
      Except (List Char × List (List Char)) (List FS × Nat × List (List Char))
  | 0, l, counter => .ok (l, counter, [])
  | _ + 1, [], counter => .ok ([], counter, [])
  | fuel + 1, f :: fs, counter =>
    match f with
    | .file n rOk =>
      match renameFilesListF search replace sub_directories rename_directories fuel
          fs counter with
      | .ok q => .ok (.file n rOk :: q.1, q.2)
      | .error e => .error e
    | .dir n rOk canEnter canList cs =>
      match renameFilesF search replace sub_directories rename_directories fuel
          (.dir n rOk canEnter canList cs) counter with
      | .error e => .error e
      | .ok q1 =>
        match renameFilesListF search replace sub_directories rename_directories fuel
            fs q1.2.1 with
        | .error e => .error (e.1, q1.2.2 ++ e.2)
        | .ok q2 => .ok (q1.1 :: q2.1, q2.2.1, q1.2.2 ++ q2.2.2)
end

/-- Source lines 135-185: `rename_files(directory, search, replace,
sub_directories, rename_directories, counter)`, with fuel `FS.nsize`
(always sufficient).  `Except.ok` is a normal return; `Except.error` is
the uncaught exception raised by an unguarded `os.listdir()` failure. -/
def rename_files (directory : FS) (search replace : List Char)
    (sub_directories rename_directories : Bool) (counter : Nat) :
    Except (List Char × List (List Char)) (FS × Nat × List (List Char)) :=
  renameFilesF search replace sub_directories rename_directories
    (FS.nsize directory) directory counter

/-- The phase-one action of the listing loop on a single entry (the name
part of `processEntry`, which does not depend on the counter). -/
def phase1 (search replace : List Char) (rename_directories : Bool) (f : FS) : FS :=
  (processEntry search replace rename_directories f 0).1

mutual
/-- Modelled from the claim C5 wording: every file at any depth whose name
contains the search token and whose rename succeeds gets the transformed
name; directories are never renamed and are always traversed. -/
def fileRenameMap (search replace : List Char) : FS → FS
  | .file n rOk =>
    if containsSub search n && rOk then .file (get_new_filename n search replace) rOk
    else .file n rOk
  | .dir n rOk canEnter canList cs =>
    .dir n rOk canEnter canList (fileRenameMapL search replace cs)
/-- `fileRenameMap` on a list of trees. -/
def fileRenameMapL (search replace : List Char) : List FS → List FS
  | [] => []
  | f :: fs => fileRenameMap search replace f :: fileRenameMapL search replace fs
end

mutual
/-- Every directory in the tree can be entered and listed. -/
def allAcc : FS → Bool
  | .file _ _ => true
  | .dir _ _ canEnter canList cs => canEnter && canList && allAccL cs
/-- `allAcc` on a list of trees. -/
def allAccL : List FS → Bool
  | [] => true
  | f :: fs => allAcc f && allAccL fs
end

/-! ## Lemmas about the name transformer -/

theorem length_dropWhile_le (p : Char → Bool) (l : List Char) :
    (l.dropWhile p).length ≤ l.length := by
  induction l with
  | nil => simp
  | cons c rest ih =>
    by_cases h : p c
    · simp only [List.dropWhile, h, List.length_cons]
      omega
    · simp [List.dropWhile, h]

theorem consHead_ne_nil (c : Char) (l : List (List Char)) : consHead c l ≠ [] := by
  cases l <;> simp [consHead]

theorem splitLitF_ne_nil (s : List Char) (fuel : Nat) (n : List Char) :
    splitLitF s fuel n ≠ [] := by
  match fuel, n with
  | 0, n => simp [splitLitF]
  | fuel + 1, [] => simp [splitLitF]
  | fuel + 1, c :: rest =>
    simp only [splitLitF]
    split
    · simp
    · exact consHead_ne_nil _ _

theorem splitWsF_ne_nil (fuel : Nat) (n : List Char) : splitWsF fuel n ≠ [] := by
  match fuel, n with
  | 0, n => simp [splitWsF]
  | fuel + 1, [] => simp [splitWsF]
  | fuel + 1, c :: rest =>
    simp only [splitWsF]
    split
    · simp
    · exact consHead_ne_nil _ _

theorem join_consHead (r : List Char) (c : Char) (l : List (List Char)) (h : l ≠ []) :
    joinWith r (consHead c l) = c :: joinWith r l := by
  match l with
  | [] => exact absurd rfl h
  | [p] => simp [consHead, joinWith]
  | p :: q :: ps => simp [consHead, joinWith]

theorem join_nil_cons (r : List Char) (l : List (List Char)) (h : l ≠ []) :
    joinWith r ([] :: l) = r ++ joinWith r l := by
  match l with
  | [] => exact absurd rfl h
  | [p] => simp [joinWith]
  | p :: q :: ps => simp [joinWith]

theorem joinWith_splitLitF (s r : List Char) (hs : s ≠ []) :
    ∀ fuel n, n.length ≤ fuel →
      joinWith r (splitLitF s fuel n) = replaceAllF s r fuel n := by
  intro fuel
  induction fuel with
  | zero =>
    intro n hn
    have hnil : n = [] := List.length_eq_zero.mp (Nat.le_zero.mp hn)
    subst hnil
    simp [splitLitF, replaceAllF, joinWith]
  | succ fuel ih =>
    intro n hn
    match n with
    | [] => simp [splitLitF, replaceAllF, joinWith]
    | c :: rest =>
      simp only [List.length_cons] at hn
      simp only [splitLitF, replaceAllF]
      by_cases hp : s.isPrefixOf (c :: rest) = true
      · rw [if_pos hp, if_pos hp]
        have hd : ((c :: rest).drop s.length).length ≤ fuel := by
          have hslen : 1 ≤ s.length := by
            cases s with
            | nil => exact absurd rfl hs
            | cons a as => simp
          simp only [List.length_drop, List.length_cons]
          omega
        rw [join_nil_cons r _ (splitLitF_ne_nil s fuel _), ih _ hd]
      · rw [if_neg hp, if_neg hp]
        rw [join_consHead r c _ (splitLitF_ne_nil s fuel rest)]
        rw [ih rest (by omega)]

theorem isEmpty_false_of_ne_nil {s : List Char} (hs : s ≠ []) : s.isEmpty = false := by
  cases s with
  | nil => exact absurd rfl hs
  | cons a as => rfl

/-- C1: for every name, every non-empty search token other than the single
whitespace character, and every replacement, `get_new_filename` returns the
name with every leftmost non-overlapping literal occurrence of the search
token replaced by the replacement.  The token is matched literally (the
source escapes it with `re.escape` before using it as a pattern). -/
theorem c1_transform_literal_replace (n s r : List Char) (hs : s ≠ []) (hw : s ≠ [' ']) :
    get_new_filename n s r = replaceAll s r n := by
  simp only [get_new_filename, splitLit, isEmpty_false_of_ne_nil hs, if_neg hw,
    Bool.false_eq_true, if_false, replaceAll]
  exact joinWith_splitLitF s r hs n.length n (Nat.le_refl _)

theorem c1_witness :
    (['b'] ≠ ([] : List Char)) ∧ (['b'] ≠ [' ']) ∧
      get_new_filename ['a', 'b'] ['b'] ['_'] = replaceAll ['b'] ['_'] ['a', 'b'] :=
  ⟨by decide, by decide,
    c1_transform_literal_replace ['a', 'b'] ['b'] ['_'] (by decide) (by decide)⟩

theorem splitLitF_no_match (s : List Char) :
    ∀ fuel n, n.length ≤ fuel → containsSub s n = false → splitLitF s fuel n = [n] := by
  intro fuel
  induction fuel with
  | zero =>
    intro n hn hc
    have hnil : n = [] := List.length_eq_zero.mp (Nat.le_zero.mp hn)
    subst hnil
    simp [splitLitF]
  | succ fuel ih =>
    intro n hn hc
    match n with
    | [] => simp [splitLitF]
    | c :: rest =>
      simp only [containsSub, Bool.or_eq_false_iff] at hc
      simp only [List.length_cons] at hn
      simp only [splitLitF, hc.1, Bool.false_eq_true, if_false]
      rw [ih rest (by omega) hc.2]
      simp [consHead]

/-- The transformer is the identity on a name that does not contain the
(non-empty, non-space) search token.  Shared by the C2 and C3 theorems. -/
theorem transform_no_match (n s r : List Char) (hs : s ≠ []) (hw : s ≠ [' '])
    (hc : containsSub s n = false) : get_new_filename n s r = n := by
  simp only [get_new_filename, splitLit, isEmpty_false_of_ne_nil hs, if_neg hw,
    Bool.false_eq_true, if_false]
  rw [splitLitF_no_match s n.length n (Nat.le_refl _) hc]
  simp [joinWith]

/-- C2, counterexample: for the name `aabaa`, search token `aba` and
replacement `b`, the replacement does not contain the search token, yet a
second application of the transformer changes the result again
(`aabaa ↦ aba ↦ b`), so the claimed idempotence fails. -/
theorem c2_counterexample :
    (['a', 'b', 'a'] ≠ ([] : List Char)) ∧ (['a', 'b', 'a'] ≠ [' ']) ∧
      containsSub ['a', 'b', 'a'] ['b'] = false ∧
      get_new_filename (get_new_filename ['a', 'a', 'b', 'a', 'a'] ['a', 'b', 'a'] ['b'])
          ['a', 'b', 'a'] ['b'] ≠
        get_new_filename ['a', 'a', 'b', 'a', 'a'] ['a', 'b', 'a'] ['b'] := by
  refine ⟨by decide, by decide, by decide, ?_⟩
  decide

/-- C2, amended: a second application of the transformer is the identity
whenever the search token does not occur in the transformed name (the
counterexample shows that the token being absent from the replacement alone
is not enough, since pieces and replacements can recombine into a fresh
occurrence). -/
theorem c2_idempotent_amended (n s r : List Char) (hs : s ≠ []) (hw : s ≠ [' '])
    (hc : containsSub s (get_new_filename n s r) = false) :
    get_new_filename (get_new_filename n s r) s r = get_new_filename n s r :=
  transform_no_match (get_new_filename n s r) s r hs hw hc

theorem c2_witness :
    (['x'] ≠ ([] : List Char)) ∧ (['x'] ≠ [' ']) ∧
      containsSub ['x'] (get_new_filename ['a', 'x', 'b'] ['x'] ['_']) = false ∧
      get_new_filename (get_new_filename ['a', 'x', 'b'] ['x'] ['_']) ['x'] ['_'] =
        get_new_filename ['a', 'x', 'b'] ['x'] ['_'] :=
  ⟨by decide, by decide, by decide,
    c2_idempotent_amended ['a', 'x', 'b'] ['x'] ['_'] (by decide) (by decide) (by decide)⟩

/-- C3, counterexample: the claim quantifies over every non-empty search
token, including the single space.  For the name `a<tab>b` the space does
not occur, yet the transformer (which resolves a single-space token to the
whitespace-run pattern) changes the name to `a_b`. -/
theorem c3_counterexample :
    ([' '] ≠ ([] : List Char)) ∧
      containsSub [' '] ['a', '\t', 'b'] = false ∧
      get_new_filename ['a', '\t', 'b'] [' '] ['_'] ≠ ['a', '\t', 'b'] := by
  refine ⟨by decide, by decide, ?_⟩
  decide

/-- C3, amended: for every non-empty search token other than the single
whitespace character, a name that does not contain the token is returned
unchanged. -/
theorem c3_identity_amended (n s r : List Char) (hs : s ≠ []) (hw : s ≠ [' '])
    (hc : containsSub s n = false) : get_new_filename n s r = n :=
  transform_no_match n s r hs hw hc

theorem c3_witness :
    (['z'] ≠ ([] : List Char)) ∧ (['z'] ≠ [' ']) ∧
      containsSub ['z'] ['a', 'b'] = false ∧
      get_new_filename ['a', 'b'] ['z'] ['_'] = ['a', 'b'] :=
  ⟨by decide, by decide, by decide,
    c3_identity_amended ['a', 'b'] ['z'] ['_'] (by decide) (by decide) (by decide)⟩

theorem joinWith_splitWsF (r : List Char) :
    ∀ fuel n, n.length ≤ fuel →
      joinWith r (splitWsF fuel n) = collapseRunsF pyIsSpace r fuel n := by
  intro fuel
  induction fuel with
  | zero =>
    intro n hn
    have hnil : n = [] := List.length_eq_zero.mp (Nat.le_zero.mp hn)
    subst hnil
    simp [splitWsF, collapseRunsF, joinWith]
  | succ fuel ih =>
    intro n hn
    match n with
    | [] => simp [splitWsF, collapseRunsF, joinWith]
    | c :: rest =>
      simp only [List.length_cons] at hn
      simp only [splitWsF, collapseRunsF]
      by_cases hp : pyIsSpace c = true
      · rw [if_pos hp, if_pos hp]
        have hd : (rest.dropWhile pyIsSpace).length ≤ fuel := by
          have := length_dropWhile_le pyIsSpace rest
          omega
        rw [join_nil_cons r _ (splitWsF_ne_nil fuel _), ih _ hd]
      · rw [if_neg hp, if_neg hp]
        rw [join_consHead r c _ (splitWsF_ne_nil fuel rest)]
        rw [ih rest (by omega)]

/-- C4, counterexample: the claim reads the collapsed characters as spaces
or tabs, but the source pattern `\s+` also matches a newline: on `a<newline>b`
the code produces `a_b` while the space-or-tab run collapsing leaves the
name unchanged. -/
theorem c4_counterexample :
    get_new_filename ['a', '\n', 'b'] [' '] ['_'] = ['a', '_', 'b'] ∧
      collapseRuns isSpaceOrTab ['_'] ['a', '\n', 'b'] = ['a', '\n', 'b'] ∧
      get_new_filename ['a', '\n', 'b'] [' '] ['_'] ≠
        collapseRuns isSpaceOrTab ['_'] ['a', '\n', 'b'] := by
  refine ⟨by decide, by decide, ?_⟩
  decide

/-- C4, amended: with the single-space search token, the transformer
replaces every maximal run of one-or-more whitespace characters — where
whitespace is the Python `\s` class (space, tab, newline, carriage return,
form feed, vertical tab and the other Unicode whitespace characters), not
only spaces and tabs — by a single copy of the replacement. -/
theorem c4_whitespace_collapse_amended (n r : List Char) :
    get_new_filename n [' '] r = collapseRuns pyIsSpace r n := by
  simp only [get_new_filename, if_pos rfl, splitWs, collapseRuns]
  exact joinWith_splitWsF r n.length n (Nat.le_refl _)

/-! ## Lemmas about the tree walker -/

theorem nsize_pos (f : FS) : 1 ≤ FS.nsize f := by
  cases f with
  | file n rOk => simp [FS.nsize]
  | dir n rOk acc cs =>
    simp only [FS.nsize]
    omega

theorem processEntry_eq (search replace : List Char) (rd : Bool) (f : FS) (c : Nat) :
    processEntry search replace rd f c =
      (phase1 search replace rd f, c + (processEntry search replace rd f 0).2) := by
  cases f with
  | file n rOk =>
    cases hc : containsSub search n <;> cases rOk <;>
      simp [processEntry, phase1, rename_file, hc]
  | dir n rOk canEnter canList cs =>
    cases hc : containsSub search n <;> cases rOk <;> cases rd <;>
      simp [processEntry, phase1, rename_file, hc]

theorem processEntries_fst (search replace : List Char) (rd : Bool) :
    ∀ (l : List FS) (c : Nat),
      (processEntries search replace rd l c).1 = l.map (phase1 search replace rd) := by
  intro l
  induction l with
  | nil => intro c; simp [processEntries]
  | cons f fs ih =>
    intro c
    simp only [processEntries, List.map_cons]
    rw [processEntry_eq]
    simp [ih]

theorem processEntries_counter_le (search replace : List Char) (rd : Bool) :
    ∀ (l : List FS) (c : Nat), c ≤ (processEntries search replace rd l c).2 := by
  intro l
  induction l with
  | nil => intro c; simp [processEntries]
  | cons f fs ih =>
    intro c
    simp only [processEntries]
    have h1 : c ≤ (processEntry search replace rd f c).2 := by
      rw [processEntry_eq]
      simp
    exact Nat.le_trans h1 (ih _)

theorem phase1_file_shape (search replace : List Char) (rd : Bool) (n : List Char) (rOk : Bool) :
    phase1 search replace rd (FS.file n rOk) =
      FS.file (if containsSub search n && rOk then get_new_filename n search replace else n)
        rOk := by
  cases hc : containsSub search n <;> cases rOk <;>
    simp [phase1, processEntry, rename_file, hc]

theorem fileRenameMap_file (search replace : List Char) (n : List Char) (rOk : Bool) :
    fileRenameMap search replace (FS.file n rOk) =
      FS.file (if containsSub search n && rOk then get_new_filename n search replace else n)
        rOk := by
  cases hc : containsSub search n <;> cases rOk <;> simp [fileRenameMap, hc]

theorem phase1_dir_rdfalse (search replace : List Char) (n : List Char)
    (rOk canEnter canList : Bool) (cs : List FS) :
    phase1 search replace false (FS.dir n rOk canEnter canList cs) =
      FS.dir n rOk canEnter canList cs := by
  simp [phase1, processEntry]

/-! ## C6, C7, C8, C9, C10 -/

/-- C6: an entry whose OS rename fails is left under its original name and
the counter is not incremented; since the processed entry is what gets
recorded in the pending directory list, a failed directory rename is
recursed into under its original name.  The source absorbs the OS error
inside `rename_file` (`try/except` returning `False`), so the failure never
raises out of the run — in the model `processEntry` is a total function. -/
theorem c6_failed_rename_no_count (search replace : List Char) (rd : Bool) (f : FS) (c : Nat)
    (h : FS.renameOk f = false) : processEntry search replace rd f c = (f, c) := by
  cases f with
  | file n rOk =>
    simp only [FS.renameOk] at h
    subst h
    cases hc : containsSub search n <;> simp [processEntry, rename_file, hc]
  | dir n rOk canEnter canList cs =>
    simp only [FS.renameOk] at h
    subst h
    cases hc : containsSub search n <;> cases rd <;> simp [processEntry, rename_file, hc]

theorem c6_witness :
    (FS.renameOk (FS.dir ['a', ' ', 'b'] false true true []) = false) ∧
      processEntry [' '] ['_'] true (FS.dir ['a', ' ', 'b'] false true true []) 7 =
        (FS.dir ['a', ' ', 'b'] false true true [], 7) :=
  ⟨rfl,
    c6_failed_rename_no_count [' '] ['_'] true (FS.dir ['a', ' ', 'b'] false true true []) 7 rfl⟩

/-- C7, counterexample: the claim covers every directory whose entering or
listing fails, but the source `try` (lines 158-163) guards only
`os.chdir`; `os.listdir()` at line 166 is unguarded.  A directory that can
be entered but not listed (`canEnter` true, `canList` false) therefore
raises an uncaught exception and aborts the run instead of reporting the
failure and returning the running count unchanged. -/
theorem c7_counterexample :
    rename_files (FS.dir ['d'] true true false []) [' '] ['_'] true false 5 =
        Except.error (['d'], []) ∧
      rename_files (FS.dir ['d'] true true false []) [' '] ['_'] true false 5 ≠
        Except.ok (FS.dir ['d'] true true false [], 5, [access_denied_message ['d']]) := by
  refine ⟨rfl, ?_⟩
  intro h
  rw [show rename_files (FS.dir ['d'] true true false []) [' '] ['_'] true false 5 =
      Except.error (['d'], []) from rfl] at h
  exact Except.noConfusion h

/-- C7, amended: when *entering* a directory fails (`os.chdir` raises:
missing or permission denied — `canEnter` false), the walker reports the
access-denied message on the error channel and returns the running counter
unchanged without raising; with counter 0 this is the non-existent-root
case, count 0 with one reported failure.  When the directory is entered
but *listing* it fails (`canList` false), the exception is uncaught and
the whole run aborts. -/
theorem c7_access_behavior_amended (n : List Char) (rOk canList : Bool) (cs : List FS)
    (search replace : List Char) (sub_directories rename_directories : Bool) (c : Nat) :
    (rename_files (FS.dir n rOk false canList cs) search replace
        sub_directories rename_directories c =
      Except.ok (FS.dir n rOk false canList cs, c, [access_denied_message n])) ∧
    (rename_files (FS.dir n rOk true false cs) search replace
        sub_directories rename_directories c =
      Except.error (n, [])) := by
  constructor
  · have hsz : FS.nsize (FS.dir n rOk false canList cs) = FS.nsizeL cs + 1 := by
      simp [FS.nsize, Nat.add_comm]
    rw [rename_files, hsz]
    simp [renameFilesF]
  · have hsz : FS.nsize (FS.dir n rOk true false cs) = FS.nsizeL cs + 1 := by
      simp [FS.nsize, Nat.add_comm]
    rw [rename_files, hsz]
    simp [renameFilesF]

theorem renameFilesF_counter_mono (search replace : List Char)
    (sub_directories rename_directories : Bool) :
    ∀ fuel : Nat,
      (∀ fs c r, renameFilesF search replace sub_directories rename_directories fuel fs c =
        Except.ok r → c ≤ r.2.1) ∧
      (∀ l c r, renameFilesListF search replace sub_directories rename_directories fuel l c =
        Except.ok r → c ≤ r.2.1) := by
  intro fuel
  induction fuel with
  | zero =>
    constructor
    · intro fs c r h
      simp only [renameFilesF, Except.ok.injEq] at h
      subst h
      simp
    · intro l c r h
      simp only [renameFilesListF, Except.ok.injEq] at h
      subst h
      simp
  | succ fuel ih =>
    constructor
    · intro fs c r h
      cases fs with
      | file n rOk =>
        simp only [renameFilesF, Except.ok.injEq] at h
        subst h
        simp
      | dir n rOk canEnter canList cs =>
        cases canEnter with
        | false =>
          simp only [renameFilesF, Bool.false_eq_true, if_false, Except.ok.injEq] at h
          subst h
          simp
        | true =>
          cases canList with
          | false =>
            simp only [renameFilesF, Bool.false_eq_true, if_false, if_true] at h
            exact Except.noConfusion h
          | true =>
            simp only [renameFilesF, if_true] at h
            by_cases hrec : (sub_directories &&
                (processEntries search replace rename_directories cs c).1.any FS.isDir) = true
            · rw [if_pos hrec] at h
              cases hq : renameFilesListF search replace sub_directories rename_directories
                  fuel (processEntries search replace rename_directories cs c).1
                  (processEntries search replace rename_directories cs c).2 with
              | ok q =>
                simp only [hq, Except.ok.injEq] at h
                subst h
                exact Nat.le_trans
                  (processEntries_counter_le search replace rename_directories cs c)
                  (ih.2 _ _ _ hq)
              | error e =>
                simp only [hq] at h
                exact Except.noConfusion h
            · rw [if_neg hrec] at h
              simp only [Except.ok.injEq] at h
              subst h
              exact processEntries_counter_le search replace rename_directories cs c
    · intro l c r h
      cases l with
      | nil =>
        cases fuel <;> simp only [renameFilesListF, Except.ok.injEq] at h <;> subst h <;> simp
      | cons f fs =>
        cases f with
        | file n rOk =>
          simp only [renameFilesListF] at h
          cases hq : renameFilesListF search replace sub_directories rename_directories
              fuel fs c with
          | ok q =>
            simp only [hq, Except.ok.injEq] at h
            subst h
            exact ih.2 fs c q hq
          | error e =>
            simp only [hq] at h
            exact Except.noConfusion h
        | dir n rOk canEnter canList cs =>
          simp only [renameFilesListF] at h
          cases hq1 : renameFilesF search replace sub_directories rename_directories fuel
              (FS.dir n rOk canEnter canList cs) c with
          | error e =>
            simp only [hq1] at h
            exact Except.noConfusion h
          | ok q1 =>
            cases hq2 : renameFilesListF search replace sub_directories rename_directories
                fuel fs q1.2.1 with
            | error e =>
              simp only [hq1, hq2] at h
              exact Except.noConfusion h
            | ok q2 =>
              simp only [hq1, hq2, Except.ok.injEq] at h
              subst h
              exact Nat.le_trans (ih.1 (FS.dir n rOk canEnter canList cs) c q1 hq1)
                (ih.2 fs q1.2.1 q2 hq2)

/-- C8: whenever the walker returns (it does not return only when an
unguarded listing failure aborts the run), the returned count is at least
the running count passed in, for every tree, every flag setting and every
initial counter; since every recursive call's returned count feeds the
next step, the accumulator never decreases at any step of the run. -/
theorem c8_counter_monotone (directory : FS) (search replace : List Char)
    (sub_directories rename_directories : Bool) (counter : Nat)
    (r : FS × Nat × List (List Char))
    (h : rename_files directory search replace sub_directories rename_directories counter =
      Except.ok r) :
    counter ≤ r.2.1 :=
  (renameFilesF_counter_mono search replace sub_directories rename_directories
      (FS.nsize directory)).1 directory counter r h

theorem c8_witness :
    (rename_files (FS.dir ['d'] true true true [FS.file ['a', ' '] true]) [' '] ['_']
        true false 2 =
      Except.ok (FS.dir ['d'] true true true [FS.file ['a', '_'] true], 3, [])) ∧
      2 ≤ (FS.dir ['d'] true true true [FS.file ['a', '_'] true], 3,
        ([] : List (List Char))).2.1 :=
  ⟨rfl,
    c8_counter_monotone (FS.dir ['d'] true true true [FS.file ['a', ' '] true]) [' '] ['_']
      true false 2 (FS.dir ['d'] true true true [FS.file ['a', '_'] true], 3, []) rfl⟩

/-- C9: an entry whose name contains the search token is renamed and
counted even when the transformed name equals the original one (for
example when the replacement equals the search token): the OS rename to
the identical name is performed, succeeds, and bumps the counter, so the
final count can exceed the number of names actually changed. -/
theorem c9_identity_rename_counted (search replace d : List Char) (dOk : Bool)
    (sub_directories rename_directories : Bool) (n : List Char) (c : Nat)
    (h1 : containsSub search n = true)
    (h2 : get_new_filename n search replace = n) :
    rename_files (FS.dir d dOk true true [FS.file n true]) search replace sub_directories
        rename_directories c =
      Except.ok (FS.dir d dOk true true [FS.file n true], c + 1, []) := by
  have hsz : FS.nsize (FS.dir d dOk true true [FS.file n true]) = 2 + 1 := by
    simp [FS.nsize, FS.nsizeL]
  rw [rename_files, hsz]
  simp [renameFilesF, processEntries, processEntry, rename_file, h1, h2, FS.isDir]

theorem c9_witness :
    (containsSub ['a'] ['a', 'b'] = true) ∧
      (get_new_filename ['a', 'b'] ['a'] ['a'] = ['a', 'b']) ∧
      rename_files (FS.dir ['d'] true true true [FS.file ['a', 'b'] true]) ['a'] ['a']
          true false 0 =
        Except.ok (FS.dir ['d'] true true true [FS.file ['a', 'b'] true], 1, []) :=
  ⟨by decide, by decide,
    c9_identity_rename_counted ['a'] ['a'] ['d'] true true false ['a', 'b'] 0
      (by decide) (by decide)⟩

/-- C10: the rename is gated on literal containment of the search token in
the entry's name even when the token is the single space, so an entry whose
name contains no literal space is skipped untouched and uncounted — even
though the transformer's whitespace-run rule would have changed the name
(for example a name containing a tab). -/
theorem c10_space_gate_skips_tab (replace : List Char) (rename_directories : Bool)
    (f : FS) (c : Nat)
    (h1 : containsSub [' '] (FS.name f) = false)
    (h2 : get_new_filename (FS.name f) [' '] replace ≠ FS.name f) :
    processEntry [' '] replace rename_directories f c = (f, c) := by
  cases f with
  | file n rOk =>
    simp only [FS.name] at h1
    simp [processEntry, h1]
  | dir n rOk canEnter canList cs =>
    simp only [FS.name] at h1
    simp [processEntry, h1]

theorem c10_witness :
    (containsSub [' '] (FS.name (FS.file ['a', '\t', 'b'] true)) = false) ∧
      (get_new_filename (FS.name (FS.file ['a', '\t', 'b'] true)) [' '] ['_'] ≠
        FS.name (FS.file ['a', '\t', 'b'] true)) ∧
      processEntry [' '] ['_'] false (FS.file ['a', '\t', 'b'] true) 3 =
        (FS.file ['a', '\t', 'b'] true, 3) :=
  ⟨by decide, by decide,
    c10_space_gate_skips_tab ['_'] false (FS.file ['a', '\t', 'b'] true) 3
      (by decide) (by decide)⟩

/-! ## C5 -/

theorem phase1_isDir (search replace : List Char) (rd : Bool) (f : FS) :
    FS.isDir (phase1 search replace rd f) = FS.isDir f := by
  cases f with
  | file n rOk =>
    cases hc : containsSub search n <;> cases rOk <;>
      simp [phase1, processEntry, rename_file, hc, FS.isDir]
  | dir n rOk canEnter canList cs =>
    cases hc : containsSub search n <;> cases rOk <;> cases rd <;>
      simp [phase1, processEntry, rename_file, hc, FS.isDir]

theorem map_phase1_eq_fileRenameMapL (search replace : List Char) :
    ∀ l : List FS, (l.map (phase1 search replace false)).any FS.isDir = false →
      l.map (phase1 search replace false) = fileRenameMapL search replace l := by
  intro l
  induction l with
  | nil => intro h; simp [fileRenameMapL]
  | cons f fs ih =>
    intro h
    simp only [List.map_cons, List.any_cons, Bool.or_eq_false_iff] at h
    simp only [List.map_cons, fileRenameMapL]
    cases f with
    | file n rOk =>
      rw [phase1_file_shape, ← fileRenameMap_file, ih h.2]
    | dir n rOk canEnter canList cs =>
      exfalso
      have hd := h.1
      rw [phase1_isDir] at hd
      simp [FS.isDir] at hd

theorem c5_aux (search replace : List Char) :
    ∀ fuel : Nat,
      (∀ fs, FS.nsize fs ≤ fuel → FS.isDir fs = true → allAcc fs = true → ∀ c, ∃ k,
        renameFilesF search replace true false fuel fs c =
          Except.ok (fileRenameMap search replace fs, k, [])) ∧
      (∀ l, FS.nsizeL l ≤ fuel → allAccL l = true → ∀ c, ∃ k,
        renameFilesListF search replace true false fuel
            (l.map (phase1 search replace false)) c =
          Except.ok (fileRenameMapL search replace l, k, [])) := by
  intro fuel
  induction fuel with
  | zero =>
    constructor
    · intro fs hsz hdir hacc c
      exact absurd hsz (by have := nsize_pos fs; omega)
    · intro l hsz hacc c
      have hl : l = [] := by
        cases l with
        | nil => rfl
        | cons f fs =>
          exfalso
          simp only [FS.nsizeL] at hsz
          omega
      subst hl
      exact ⟨c, by simp [renameFilesListF, fileRenameMapL]⟩
  | succ fuel ih =>
    constructor
    · intro fs hsz hdir hacc c
      cases fs with
      | file n rOk => simp [FS.isDir] at hdir
      | dir n rOk canEnter canList cs =>
        simp only [allAcc, Bool.and_eq_true] at hacc
        obtain ⟨⟨hce, hcl⟩, hcs⟩ := hacc
        subst hce
        subst hcl
        simp only [FS.nsize] at hsz
        simp only [renameFilesF, if_true]
        rw [processEntries_fst]
        by_cases hrec : (cs.map (phase1 search replace false)).any FS.isDir = true
        · simp only [Bool.true_and, hrec, if_true]
          obtain ⟨k, hk⟩ :=
            ih.2 cs (by omega) hcs ((processEntries search replace false cs c).2)
          refine ⟨k, ?_⟩
          rw [hk]
          simp [fileRenameMap]
        · have hrec2 : (cs.map (phase1 search replace false)).any FS.isDir = false := by
            revert hrec
            cases (cs.map (phase1 search replace false)).any FS.isDir <;> simp
          simp only [Bool.true_and, hrec2, Bool.false_eq_true, if_false]
          rw [map_phase1_eq_fileRenameMapL search replace cs hrec2]
          exact ⟨(processEntries search replace false cs c).2, by simp [fileRenameMap]⟩
    · intro l hsz hacc c
      cases l with
      | nil => exact ⟨c, by simp [renameFilesListF, fileRenameMapL]⟩
      | cons f fs =>
        simp only [FS.nsizeL] at hsz
        simp only [allAccL, Bool.and_eq_true] at hacc
        obtain ⟨hf, hfs⟩ := hacc
        cases f with
        | file n rOk =>
          rw [List.map_cons, phase1_file_shape]
          simp only [renameFilesListF]
          simp only [FS.nsize] at hsz
          obtain ⟨k, hk⟩ := ih.2 fs (by omega) hfs c
          refine ⟨k, ?_⟩
          rw [hk]
          simp [fileRenameMapL, fileRenameMap_file]
        | dir n rOk canEnter canList cs =>
          rw [List.map_cons, phase1_dir_rdfalse]
          simp only [renameFilesListF]
          simp only [FS.nsize] at hsz
          obtain ⟨k1, hk1⟩ :=
            ih.1 (FS.dir n rOk canEnter canList cs) (by simp only [FS.nsize]; omega) rfl hf c
          obtain ⟨k2, hk2⟩ := ih.2 fs (by omega) hfs k1
          refine ⟨k2, ?_⟩
          simp [hk1, hk2, fileRenameMapL]

/-- C5: with `rename_directories` off and `sub_directories` on, and every
directory in the tree enterable and listable, the walker returns normally,
leaves every directory name untouched, yet still records each directory
entry for recursion (traversal is governed solely by `sub_directories`),
so the resulting tree is exactly the original with every matching,
renameable file — at any depth, in particular inside directories whose own
names match the search token — given its transformed name. -/
theorem c5_traversal_independent_of_rename_flag (directory : FS)
    (search replace : List Char) (c : Nat)
    (hdir : FS.isDir directory = true) (hacc : allAcc directory = true) :
    Except.map (fun r => r.1) (rename_files directory search replace true false c) =
      Except.ok (fileRenameMap search replace directory) := by
  obtain ⟨k, hk⟩ :=
    (c5_aux search replace (FS.nsize directory)).1 directory (Nat.le_refl _) hdir hacc c
  rw [rename_files, hk]
  rfl

theorem c5_witness :
    (FS.isDir (FS.dir ['x'] true true true
        [FS.dir ['f', ' ', 'b'] true true true [FS.file ['b', ' ', 'z'] true]]) = true) ∧
      (allAcc (FS.dir ['x'] true true true
        [FS.dir ['f', ' ', 'b'] true true true [FS.file ['b', ' ', 'z'] true]]) = true) ∧
      Except.map (fun r => r.1)
          (rename_files (FS.dir ['x'] true true true
            [FS.dir ['f', ' ', 'b'] true true true [FS.file ['b', ' ', 'z'] true]])
            [' '] ['_'] true false 0) =
        Except.ok (fileRenameMap [' '] ['_'] (FS.dir ['x'] true true true
          [FS.dir ['f', ' ', 'b'] true true true [FS.file ['b', ' ', 'z'] true]])) :=
  ⟨by decide, by decide,
    c5_traversal_independent_of_rename_flag
      (FS.dir ['x'] true true true
        [FS.dir ['f', ' ', 'b'] true true true [FS.file ['b', ' ', 'z'] true]])
      [' '] ['_'] 0 (by decide) (by decide)⟩
